import Mathlib

/-!
Verification development for the kiwistand store (src/store.mjs) and the
story-aggregation view (web `count`).  JavaScript values are embedded
shallowly: byte buffers become `List Nat` (each entry < 256 in practice),
external libraries (RLP, keccak256, the LMDB-backed trie database, signature
recovery, URL normalization, CBOR decoding) are modelled as explicit
parameters or faithful re-implementations, and exceptions become `Except`.
-/

namespace Kiwistand

/-- A byte string (Node.js `Buffer`), one `Nat` per byte. -/
abbrev Bytes := List Nat

/-! ## RLP items and encoding

`@ethereumjs/rlp` encodes nested structures of byte strings.  Trie node
references (`BranchNode` children, `ExtensionNode` values) are either a hash
buffer or an embedded raw node (a nested array), so references are modelled
as arbitrary `RLPItem`s. -/

/-- An RLP-encodable value: a byte string or a list of items. -/
inductive RLPItem where
  | str (b : Bytes)
  | list (l : List RLPItem)

/-- Minimal big-endian byte representation of a natural number; the fuel is
a structural bound on the number of digits (`n + 1` always suffices). -/
def beBytesAux : Nat → Nat → Bytes
  | 0, _ => []
  | fuel + 1, n => if n < 256 then [n] else beBytesAux fuel (n / 256) ++ [n % 256]

/-- Minimal big-endian byte representation of a natural number. -/
def beBytes (n : Nat) : Bytes := beBytesAux (n + 1) n

/-- RLP length header: short form below 56, else length-of-length form. -/
def rlpLenHeader (offset len : Nat) : Bytes :=
  if len < 56 then [offset + len]
  else (offset + 55 + (beBytes len).length) :: beBytes len

/-- RLP encoding of a byte string. -/
def rlpEncodeBytes (b : Bytes) : Bytes :=
  match b with
  | [a] => if a < 0x80 then [a] else 0x81 :: b
  | _ => rlpLenHeader 0x80 b.length ++ b

mutual

/-- RLP encoding of an item (`rlp.encode`). -/
def rlpEncode : RLPItem → Bytes
  | .str b => rlpEncodeBytes b
  | .list items =>
    let payload := rlpEncodePayload items
    rlpLenHeader 0xc0 payload.length ++ payload

/-- Concatenated RLP encodings of a sequence of items. -/
def rlpEncodePayload : List RLPItem → Bytes
  | [] => []
  | i :: rest => rlpEncode i ++ rlpEncodePayload rest

end

/-! ## Nibbles and hex-prefix encoding (ethereumjs trie key handling) -/

/-- Model of `bufferToNibbles`: each byte becomes a high and a low nibble. -/
def bytesToNibbles (b : Bytes) : List Nat :=
  b.flatMap (fun x => [x / 16, x % 16])

/-- Model of `nibblesToBuffer` from src/store.mjs: packs nibble pairs into bytes.
`Buffer.alloc(arr.length / 2)` is modelled with `Nat` floor division; in the
repository all converted nibble arrays have even length. -/
def nibblesToBuffer (arr : List Nat) : Bytes :=
  (List.range (arr.length / 2)).map
    (fun i => (arr.getD (2 * i) 0) * 16 + arr.getD (2 * i + 1) 0)

/-- Hex-prefix encoding of a key (ethereumjs `addHexPrefix`): odd-length keys
get a single flag nibble, even-length keys a flag nibble and a zero nibble;
the terminator flag (leaf) adds 2. -/
def hpEncode (key : List Nat) (terminator : Bool) : List Nat :=
  if key.length % 2 = 1 then
    ((if terminator then 3 else 1) : Nat) :: key
  else
    ((if terminator then 2 else 0) : Nat) :: 0 :: key

/-- Hex-prefix decoding (ethereumjs `removeHexPrefix`): drop one nibble for
odd flags, two for even flags. -/
def hpDecode (nibbles : List Nat) : List Nat :=
  match nibbles with
  | [] => []
  | f :: rest => if f % 2 = 1 then rest else rest.drop 1

/-! ## Trie nodes -/

/-- The three `@ethereumjs/trie` node kinds.  A branch has 16 child
references plus a value; keys of extensions and leaves are stored as nibble
arrays without the hex prefix, exactly as `node.key()` returns them.  An
absent branch child is the empty byte string `.str []`. -/
inductive TrieNode where
  | branch (children : List RLPItem) (value : Bytes)
  | extension (key : List Nat) (child : RLPItem)
  | leaf (key : List Nat) (value : Bytes)

/-- Model of `node.raw()`: the canonical field array that RLP-encodes the node. -/
def TrieNode.raw : TrieNode → RLPItem
  | .branch children value => .list (children ++ [.str value])
  | .extension key child => .list [.str (nibblesToBuffer (hpEncode key false)), child]
  | .leaf key value => .list [.str (nibblesToBuffer (hpEncode key true)), .str value]

/-- Model of `node.serialize()`: the RLP encoding of the node's raw fields. -/
def TrieNode.serialize (n : TrieNode) : Bytes := rlpEncode n.raw

/-- Model of `hash(node)` from src/store.mjs: encode the raw fields; if the encoding
is shorter than 32 bytes return `node.serialize()` (the encoding itself),
else the keccak256 digest.  `keccak` is the external digest function.  The
JavaScript function throws on any value that is not one of the three node
kinds; `TrieNode` covers exactly those, so the throwing branch is
unrepresentable here. -/
def hash (keccak : Bytes → Bytes) (node : TrieNode) : Bytes :=
  let encoded := rlpEncode node.raw
  if encoded.length < 32 then node.serialize
  else keccak encoded

/-! ## RLP decoding and `decodeNode`

`decodeNode` from `@ethereumjs/trie` RLP-decodes a buffer and rebuilds a
node from the decoded field array (17 fields for a branch, 2 for a leaf or
extension, distinguished by the hex-prefix flag); it throws on anything
else.  The decoder is fuel-indexed (fuel bounds the number of recursive
steps; `input.length + 1` always suffices). -/

/-- Split off the first `n` bytes, failing if fewer are available. -/
def splitAtOpt (n : Nat) (l : Bytes) : Option (Bytes × Bytes) :=
  if n ≤ l.length then some (l.take n, l.drop n) else none

/-- Big-endian interpretation of a byte string. -/
def beDecode (l : Bytes) : Nat := l.foldl (fun a b => a * 256 + b) 0

mutual

/-- Decode one RLP item from the front of a byte string, returning the item
and the remaining bytes.  Canonicity (minimal encodings) is enforced as in
`@ethereumjs/rlp`. -/
def rlpDecodeItem : Nat → Bytes → Option (RLPItem × Bytes)
  | 0, _ => none
  | _ + 1, [] => none
  | fuel + 1, b :: rest =>
    if b < 0x80 then some (.str [b], rest)
    else if b < 0xb8 then
      let len := b - 0x80
      (splitAtOpt len rest).bind fun (s, r) =>
        match s with
        | [a] => if a < 0x80 then none else some (.str s, r)
        | _ => some (.str s, r)
    else if b < 0xc0 then
      let ll := b - 0xb7
      (splitAtOpt ll rest).bind fun (lb, r) =>
        let len := beDecode lb
        if len < 56 then none
        else (splitAtOpt len r).map fun (s, r2) => (.str s, r2)
    else if b < 0xf8 then
      let plen := b - 0xc0
      (splitAtOpt plen rest).bind fun (p, r) =>
        (rlpDecodeMany fuel p).map fun items => (.list items, r)
    else
      let ll := b - 0xf7
      (splitAtOpt ll rest).bind fun (lb, r) =>
        let plen := beDecode lb
        if plen < 56 then none
        else (splitAtOpt plen r).bind fun (p, r2) =>
          (rlpDecodeMany fuel p).map fun items => (.list items, r2)

/-- Decode a whole byte string as a sequence of RLP items. -/
def rlpDecodeMany : Nat → Bytes → Option (List RLPItem)
  | _, [] => some []
  | 0, _ :: _ => none
  | fuel + 1, a :: l =>
    (rlpDecodeItem fuel (a :: l)).bind fun (item, r) =>
      (rlpDecodeMany fuel r).map fun items => item :: items

end

/-- Rebuild a node from a decoded RLP field array (ethereumjs
`decodeRawNode`): 17 fields give a branch (the last must be a byte string),
2 fields give a leaf or an extension according to the hex-prefix flag of the
first field. -/
def nodeFromRaw (items : List RLPItem) : Option TrieNode :=
  if items.length = 17 then
    match items.getLast? with
    | some (.str v) => some (.branch (items.take 16) v)
    | _ => none
  else if items.length = 2 then
    match items with
    | [.str kb, second] =>
      match bytesToNibbles kb with
      | [] => none
      | f :: rest =>
        if f ≥ 2 then
          match second with
          | .str v => some (.leaf (hpDecode (f :: rest)) v)
          | .list _ => none
        else some (.extension (hpDecode (f :: rest)) second)
    | _ => none
  else none

/-- Model of `decodeNode` as a total function: `some` exactly when the buffer is a
well-formed RLP list that rebuilds into a node; the JavaScript function
throws in every `none` case. -/
def decodeNodeOpt (b : Bytes) : Option TrieNode :=
  match rlpDecodeItem (2 * b.length + 2) b with
  | some (.list items, []) => nodeFromRaw items
  | _ => none

/-! ## `isEqual` -/

/-- A JavaScript value as seen by `isEqual`: a `Buffer`, an `Array`, or
anything else (`other`). -/
inductive JSVal where
  | buf (b : Bytes)
  | arr (l : List Bytes)
  | other

/-- Model of `isEqual(buf1, buf2)` from src/store.mjs: throws if either argument is
an array; if both are buffers, compares bytes (`Buffer.compare === 0` holds
exactly for byte-equal buffers); everything else compares unequal. -/
def isEqual : JSVal → JSVal → Except String Bool
  | .arr _, _ => .error "Can only compare buffers"
  | _, .arr _ => .error "Can only compare buffers"
  | .buf b1, .buf b2 => .ok (decide (b1 = b2))
  | _, _ => .ok false

/-- The value `isEqual` computes when both arguments are buffers, used where
src/store.mjs compares two values that are always buffers (root hashes, node
hashes). -/
def isEqualB (b1 b2 : Bytes) : Bool := decide (b1 = b2)

/-! ## The local trie interface and `lookup`

The `@ethereumjs/trie` instance backed by LMDB is external; it is modelled
by its interface: the persisted root hash, hash-keyed node lookup
(`trie.lookupNode`, which fails with the "Missing node in DB" error when the
hash is absent), and path-keyed lookup (`trie.findPath`, whose result node
is null when no node occupies the key path). -/

/-- Errors surfaced by the external trie database.  `missingNode` is the
"Missing node in DB" error that src/store.mjs tests for by message;
`fuelOut` marks non-termination of the walk model (no JavaScript
counterpart); `other` is any other thrown error. -/
inductive TrieErr where
  | missingNode
  | typeError
  | fuelOut
  | other (msg : String)
  deriving DecidableEq

/-- The local trie, by interface. -/
structure LocalTrie where
  root : Bytes
  lookupNode : Bytes → Except TrieErr TrieNode
  findPath : Bytes → Option TrieNode

/-- A node descriptor received from a remote peer: level, key path and node
hash (spec §3 RemoteNodeDescriptor). -/
structure RemoteDescriptor where
  level : Nat
  key : Bytes
  hash : Bytes
  deriving DecidableEq

/-- The classification strings of src/store.mjs `lookup`. -/
inductive LookupType where
  | matched
  | mismatch
  | missing
  deriving DecidableEq

/-- The `{node, type}` record returned by `lookup`. -/
structure LookupResult where
  node : Option TrieNode
  type : LookupType

/-- Model of `lookup(trie, hash, key)` from src/store.mjs: a hash that decodes as an
inline node is reported `missing`; otherwise a successful hash-keyed lookup
is a `match`; on the missing-node error the node at the key path (possibly
null) is reported as a `mismatch`; any other error propagates. -/
def lookup (trie : LocalTrie) (hsh key : Bytes) : Except TrieErr LookupResult :=
  match decodeNodeOpt hsh with
  | some n => .ok ⟨some n, .missing⟩
  | none =>
    match trie.lookupNode hsh with
    | .ok n => .ok ⟨some n, .matched⟩
    | .error .missingNode => .ok ⟨trie.findPath key, .mismatch⟩
    | .error e => .error e

/-- The `{missing, mismatch, match}` lists returned by `compare` (the third
field is named `matched` because `match` is reserved in Lean). -/
structure CompareResult where
  missing : List RemoteDescriptor
  mismatch : List RemoteDescriptor
  matched : List RemoteDescriptor
  deriving DecidableEq

/-- Model of `compare(localTrie, remotes)` from src/store.mjs, as a recursion over
the remote list.  A descriptor with `level === 0` whose hash equals the
local root is pushed onto `match` and the loop breaks (both values are
buffers, so `isEqual` is byte equality); otherwise the descriptor is
classified by `lookup`, requiring a non-null node for `match` and
`mismatch`.  A propagated `lookup` error aborts the whole call. -/
def compareGo (trie : LocalTrie) : List RemoteDescriptor → Except TrieErr CompareResult
  | [] => .ok ⟨[], [], []⟩
  | r :: rest =>
    if r.level = 0 ∧ isEqualB trie.root r.hash then
      .ok ⟨[], [], [r]⟩
    else
      match lookup trie r.hash r.key with
      | .error e => .error e
      | .ok res =>
        (compareGo trie rest).map fun c =>
          if res.type = .matched ∧ res.node.isSome then
            { c with matched := r :: c.matched }
          else if res.type = .mismatch ∧ res.node.isSome then
            { c with mismatch := r :: c.mismatch }
          else
            { c with missing := r :: c.missing }

/-- Model of `compare` entry point. -/
def compare (localTrie : LocalTrie) (remotes : List RemoteDescriptor) :
    Except TrieErr CompareResult :=
  compareGo localTrie remotes

/-! ## `descend`

`descend` drives the walk controller (`newWalk` from src/WalkController.mjs,
which is not part of the sources here) with the `onFound` callback defined
inline in src/store.mjs. -/

/-- A local node descriptor as pushed by `descend`'s `onFound`:
`{level, key, hash, node}` (the sentinel for the empty root carries
`node = null`). -/
structure LocalDescriptor where
  level : Nat
  key : Bytes
  hash : Bytes
  node : Option TrieNode

/-- The canonical empty trie root (keccak256 of the RLP empty string), the
hex constant from `descend` and `trie.EMPTY_TRIE_ROOT`. -/
def emptyRoot : Bytes :=
  [0x56, 0xe8, 0x1f, 0x17, 0x1b, 0xcc, 0x55, 0xa6, 0xff, 0x83, 0x45, 0xe6,
   0x92, 0xc0, 0xf8, 0x6e, 0x5b, 0x48, 0xe0, 0x1b, 0x99, 0x6c, 0xad, 0xc0,
   0x01, 0x62, 0x2f, 0xb5, 0xe3, 0x63, 0xb4, 0x21]

/-- Modelled from the spec: resolution of a child reference during the walk
(src/WalkController.mjs is not among the sources).  A hash reference is
fetched from the database; an embedded raw node (a nested array reference)
is rebuilt directly, as the §4.1 inline-node rule prescribes. -/
def resolveRef (trie : LocalTrie) : RLPItem → Except TrieErr TrieNode
  | .str h => trie.lookupNode h
  | .list items =>
    match nodeFromRaw items with
    | some n => .ok n
    | none => .error .typeError

/-- A walk returns the descriptors accumulated so far and, when the
traversal aborted, the error that ended it (the JavaScript `nodes` array
keeps what was pushed before `newWalk` threw). -/
abbrev WalkRes := List LocalDescriptor × Option TrieErr

/-- The child references a branch node offers to the walk, in ascending
index order, skipping empty slots (`getBranch` returns null for them); each
child key extends the path with the branch index nibble. -/
def branchChildRefs (children : List RLPItem) (key : List Nat) :
    List (RLPItem × List Nat) :=
  (List.range 16).filterMap fun i =>
    match children.getD i (.str []) with
    | .str [] => none
    | .list [] => none
    | ref => some (ref, key ++ [i])

/-- Modelled from the spec: `walkController.allChildren` visits each child
reference in order, resolving it and invoking the callback; a resolution
failure or callback abort ends the walk, keeping descriptors already
collected. -/
def walkChildren (trie : LocalTrie) (f : TrieNode → List Nat → WalkRes) :
    List (RLPItem × List Nat) → WalkRes
  | [] => ([], none)
  | (ref, k) :: rest =>
    match resolveRef trie ref with
    | .error e => ([], some e)
    | .ok n =>
      match f n k with
      | (ds, some e) => (ds, some e)
      | (ds, none) =>
        match walkChildren trie f rest with
        | (ds2, e2) => (ds ++ ds2, e2)

/-- The `onFound` callback of `descend` (src/store.mjs), combined with the
spec-modelled walk recursion: skip nodes whose hash is in `exclude`
(`isEqual` on two buffers is byte equality); at remaining depth zero record
the descriptor, converting the accumulated nibble path to bytes and, for a
leaf above level 0, appending the leaf's own stored key suffix; otherwise
recurse through branch and extension children with the depth decremented,
stopping at leaves. -/
def walkOnFound (trie : LocalTrie) (keccak : Bytes → Bytes) (level : Nat)
    (exclude : List Bytes) : (currentLevel : Nat) → TrieNode → List Nat → WalkRes
  | currentLevel, node, key =>
    let nodeHash := hash keccak node
    if exclude.any (fun markedNode => isEqualB markedNode nodeHash) then ([], none)
    else
      match currentLevel with
      | 0 =>
        match node with
        | .leaf nk _ =>
          if level ≠ 0 then
            ([⟨level, nibblesToBuffer key ++ nibblesToBuffer nk, nodeHash, some node⟩], none)
          else
            ([⟨level, nibblesToBuffer key, nodeHash, some node⟩], none)
        | _ => ([⟨level, nibblesToBuffer key, nodeHash, some node⟩], none)
      | cl + 1 =>
        match node with
        | .branch children _ =>
          walkChildren trie (fun n k => walkOnFound trie keccak level exclude cl n k)
            (branchChildRefs children key)
        | .extension ek child =>
          walkChildren trie (fun n k => walkOnFound trie keccak level exclude cl n k)
            [(child, key ++ ek)]
        | .leaf _ _ => ([], none)

/-- Modelled from the spec: `newWalk(onFound, trie, trie.root(), level)`
fetches the root node and starts the walk at the full remaining depth. -/
def newWalk (trie : LocalTrie) (keccak : Bytes → Bytes) (level : Nat)
    (exclude : List Bytes) : WalkRes :=
  match trie.lookupNode trie.root with
  | .error e => ([], some e)
  | .ok rootNode => walkOnFound trie keccak level exclude level rootNode []

/-- Model of `descend(trie, level, exclude)` from src/store.mjs: at level 0 on the
canonical empty root, return the single sentinel descriptor instead of
walking; otherwise walk, returning the collected descriptors, swallowing
only the "Missing node in DB" abort and propagating any other error. -/
def descend (trie : LocalTrie) (keccak : Bytes → Bytes) (level : Nat)
    (exclude : List Bytes := []) : Except TrieErr (List LocalDescriptor) :=
  if level = 0 ∧ isEqualB emptyRoot trie.root then
    .ok [⟨0, [], trie.root, none⟩]
  else
    match newWalk trie keccak level exclude with
    | (nodes, none) => .ok nodes
    | (nodes, some .missingNode) => .ok nodes
    | (_, some e) => .error e

/-! ## `walkTrieDfs` and `leaves` -/

/-- The `Buffer.isBuffer(nodeRef) && nodeRef.equals(trie.EMPTY_TRIE_ROOT)`
test of `walkTrieDfs`: only a buffer reference can equal the empty root. -/
def refIsEmptyRoot : RLPItem → Bool
  | .str h => isEqualB h emptyRoot
  | .list _ => false

/-- Sequencing of the recursive generator calls over a branch's children:
results concatenate in order and an error aborts the whole run. -/
def walkDfsChildren
    (f : RLPItem → List Nat → Except TrieErr (List (TrieNode × List Nat))) :
    List (RLPItem × List Nat) → Except TrieErr (List (TrieNode × List Nat))
  | [] => .ok []
  | (ref, k) :: rest =>
    match f ref k with
    | .error e => .error e
    | .ok ds =>
      match walkDfsChildren f rest with
      | .error e => .error e
      | .ok ds2 => .ok (ds ++ ds2)

/-- Model of `walkTrieDfs(trie, nodeRef, key)` from src/store.mjs: the depth-first
generator over leaves.  A root reference equal to the empty trie root yields
nothing; leaves are yielded with their accumulated nibble key; extensions
append their key fragment and recurse into their single child; branches
recurse into each present child in ascending index order.  The generator is
eager here, so an exception discards the sequence, exactly as a thrown
error reaches the `for await` consumer in `leaves`.  Recursion is
fuel-indexed because the external database could contain reference cycles,
on which the JavaScript generator diverges (`fuelOut`). -/
def walkTrieDfs (trie : LocalTrie) :
    Nat → RLPItem → List Nat → Except TrieErr (List (TrieNode × List Nat))
  | 0, _, _ => .error .fuelOut
  | fuel + 1, nodeRef, key =>
    if refIsEmptyRoot nodeRef then .ok []
    else
      match resolveRef trie nodeRef with
      | .error e => .error e
      | .ok node =>
        match node with
        | .leaf _ _ => .ok [(node, key)]
        | .extension ek child => walkTrieDfs trie fuel child (key ++ ek)
        | .branch children _ =>
          walkDfsChildren (fun ref k => walkTrieDfs trie fuel ref k)
            (branchChildRefs children key)

/-- The value a walked node contributes to `leaves` (`node.value()`): the
stored value of a leaf (the generator only yields leaves; the other cases
are the library accessor's values, never reached from `leaves`). -/
def TrieNode.nodeValue : TrieNode → Bytes
  | .leaf _ v => v
  | .branch _ v => v
  | .extension _ _ => []

/-- The external collaborators of `leaves`: the CBOR decoder for stored
values (type `α`), the optional parser producing parsed posts (type `β`),
the field accessors the filters read, and URL normalization. -/
structure LeavesCfg (α β : Type) where
  decodeValue : Bytes → α
  parser : Option (α → β)
  getTimestamp : β → Int
  getHref : β → String
  normalizeUrl : String → String

/-- Model of `parsed.timestamp < startDatetime` with JavaScript coercion: comparing
against `null` coerces it to 0. -/
def tsBelow (t : Int) : Option Int → Bool
  | none => t < 0
  | some s => t < s

/-- The body of the `for await` loop of `leaves`: `pointer` counts every
walked leaf; `amount` caps the number of collected items (checked before
each iteration, `Number.isInteger(null)` is false); `from` skips leaves
while `pointer <= from`; with a parser, items failing the minimum-timestamp
or normalized-href filters are skipped.  Collected items are raw decoded
values (`Sum.inl`) without a parser, parsed posts (`Sum.inr`) with one. -/
def leavesLoop {α β : Type} (cfg : LeavesCfg α β) (from_ amount : Option Int)
    (startDatetime : Option Int) (href : Option String) :
    List TrieNode → Nat → List (α ⊕ β) → List (α ⊕ β)
  | [], _, acc => acc.reverse
  | node :: rest, pointer, acc =>
    if (match amount with
        | some a => decide ((acc.length : Int) ≥ a)
        | none => false) then
      acc.reverse
    else
      let pointer2 := pointer + 1
      if (match from_ with
          | some f => decide ((pointer2 : Int) ≤ f)
          | none => false) then
        leavesLoop cfg from_ amount startDatetime href rest pointer2 acc
      else
        let value := cfg.decodeValue node.nodeValue
        match cfg.parser with
        | none =>
          leavesLoop cfg from_ amount startDatetime href rest pointer2 (.inl value :: acc)
        | some p =>
          let parsed := p value
          if tsBelow (cfg.getTimestamp parsed) startDatetime then
            leavesLoop cfg from_ amount startDatetime href rest pointer2 acc
          else
            match href with
            | some h =>
              if cfg.normalizeUrl (cfg.getHref parsed) ≠ cfg.normalizeUrl h then
                leavesLoop cfg from_ amount startDatetime href rest pointer2 acc
              else
                leavesLoop cfg from_ amount startDatetime href rest pointer2 (.inr parsed :: acc)
            | none =>
              leavesLoop cfg from_ amount startDatetime href rest pointer2 (.inr parsed :: acc)

/-- Model of `leaves(trie, from, amount, parser, startDatetime, href, root =
trie.root())` from src/store.mjs: run the depth-first walk from `root` and
fold the loop body over the yielded leaves.  A `null` `href` also covers the
falsy empty string of the JavaScript `if (href && ...)` test. -/
def leaves {α β : Type} (cfg : LeavesCfg α β) (trie : LocalTrie) (fuel : Nat)
    (from_ amount : Option Int) (startDatetime : Option Int) (href : Option String)
    (root : Bytes := trie.root) : Except TrieErr (List (α ⊕ β)) :=
  match walkTrieDfs trie fuel (.str root) [] with
  | .error e => .error e
  | .ok ws =>
    .ok (leavesLoop cfg from_ amount startDatetime href (ws.map Prod.fst) 0 [])

/-! ## The dedup ledger, `passes`, `upvoteID` and `add` -/

/-- The LMDB metadata store, modelled as an association list where a `put`
shadows earlier entries. -/
abbrev Metadb := List (String × Bool)

/-- Model of `db.get(key)`: the most recent value at the key, if present. -/
def dbGet (db : Metadb) (key : String) : Option Bool :=
  (db.find? (fun p => decide (p.1 = key))).map (·.2)

/-- Model of `db.put(key, v)`. -/
def dbPut (db : Metadb) (key : String) (v : Bool) : Metadb :=
  (key, v) :: db

/-- Model of `db.remove(key)`: returns whether the key was present. -/
def dbRemove (db : Metadb) (key : String) : Bool × Metadb :=
  ((dbGet db key).isSome, db.filter (fun p => decide (p.1 ≠ key)))

/-- Model of `passes(db, key, identity)` from src/store.mjs: remember whether the key
was absent, unconditionally write `true` at it, and report the remembered
absence.  The state-passing pair returns the updated store. -/
def passes (db : Metadb) (key : String) (_identity : String) : Bool × Metadb :=
  let notFound := decide (dbGet db key = none)
  (notFound, dbPut db key true)

/-- A sequence of further sequential `passes` calls, keeping only the store. -/
def runPasses (db : Metadb) (keys : List String) : Metadb :=
  keys.foldl (fun d k => (passes d k "").2) db

/-- Model of `upvoteID(identity, link, type)` from src/store.mjs; `utils.getAddress`
(checksum normalization) and `normalizeUrl` are external. -/
def upvoteID (getAddress normalizeUrl : String → String)
    (identity link type : String) : String :=
  getAddress identity ++ "|" ++ normalizeUrl link ++ "|" ++ type

/-- A message as `add` reads it; the signature is embedded in the opaque
part handled by the external `verify`. -/
structure Message where
  href : String
  title : String
  type : String
  timestamp : Int
  signature : String
  deriving DecidableEq

/-- The failure cases of `add` (every `throw` in src/store.mjs `add`). -/
inductive AddErr where
  | invalidSignature (msg : String)
  | notAuthorized
  | timestampTooOld
  | timestampTooNew
  | duplicate
  | storageFailed (rolledBack : Bool)
  deriving DecidableEq

/-- The external collaborators and environment configuration of `add`:
signature recovery (`verify`, which throws on an invalid signature),
identity resolution (`eligible` with the allow list and delegations already
applied), the two timestamp bounds read from the environment, the current
time (`Date.now() / 1000`; an integer here, though JavaScript computes a
float — only its ordering against integer timestamps matters), the
canonical digest (`toDigest`, returning canonical bytes and the index key),
and the string helpers of `upvoteID`. -/
structure AddConfig where
  verify : Message → Except String String
  eligible : String → Option String
  minTimestampSecs : Int
  nowSecs : Int
  toleranceSecs : Int
  toDigest : Message → Bytes × Bytes
  getAddress : String → String
  normalizeUrl : String → String

/-- The state after an `add` call: the outcome, the trie (abstract state of
type `τ`, unchanged whenever `trie.put` was not reached or threw), the
metadata store, and whether the canonical payload was handed to the
distributor. -/
structure AddOutcome (τ : Type) where
  result : Except AddErr Unit
  trie : τ
  metadb : Metadb
  published : Bool

/-- Model of `add(trie, message, libp2p, allowlist, delegations, synching, metadb)`
from src/store.mjs.  Steps in source order: recover the address, resolve the
identity, reject timestamps below `minTimestampSecs`, reject timestamps at
or above `now + toleranceSecs` unless `synching`, run the dedup check
(`passes`, which writes its marker even when it fails), digest, and write to
the trie (`triePut` abstracts `trie.put` over an abstract trie state τ); a
trie write failure rolls the dedup marker back best-effort.  On success the
message is published exactly when a libp2p instance is configured. -/
def add {τ : Type} (cfg : AddConfig) (triePut : τ → Bytes → Bytes → Except String τ)
    (trie : τ) (message : Message) (libp2p : Bool) (synching : Bool := false)
    (metadb : Metadb := []) : AddOutcome τ :=
  match cfg.verify message with
  | .error e => ⟨.error (.invalidSignature e), trie, metadb, false⟩
  | .ok address =>
    match cfg.eligible address with
    | none => ⟨.error .notAuthorized, trie, metadb, false⟩
    | some identity =>
      if message.timestamp < cfg.minTimestampSecs then
        ⟨.error .timestampTooOld, trie, metadb, false⟩
      else if ¬synching ∧ message.timestamp ≥ cfg.nowSecs + cfg.toleranceSecs then
        ⟨.error .timestampTooNew, trie, metadb, false⟩
      else
        let key := upvoteID cfg.getAddress cfg.normalizeUrl identity message.href message.type
        match passes metadb key identity with
        | (legit, metadb2) =>
          if ¬legit then ⟨.error .duplicate, trie, metadb2, false⟩
          else
            match cfg.toDigest message with
            | (canonical, index) =>
              match triePut trie index canonical with
              | .error _ =>
                match dbRemove metadb2 key with
                | (removed, metadb3) =>
                  ⟨.error (.storageFailed removed), trie, metadb3, false⟩
              | .ok trie2 => ⟨.ok (), trie2, metadb2, libp2p⟩

/-! ## `count` (story aggregation, web index view)

The `count` of src/unnamed/part_001: sort leaves by ascending timestamp
(JavaScript `Array.prototype.sort` is stable; `List.mergeSort` with the same
comparator computes the same stable result), then fold them into an
insertion-ordered map keyed by normalized href: the first leaf of a key
creates its story, every later `amplify` leaf of the same key adds an
upvote and its upvoter and fills in a missing title. -/

/-- A parsed, identity-resolved leaf as the web index view consumes it. -/
structure PostLeaf where
  href : String
  title : String
  type : String
  timestamp : Int
  identity : String
  displayName : String
  index : String
  deriving DecidableEq

/-- A derived story (spec §3): the aggregation of the leaves sharing one
normalized href. -/
structure Story where
  title : String
  timestamp : Int
  href : String
  identity : String
  displayName : String
  upvotes : Nat
  upvoters : List String
  index : String
  deriving DecidableEq

/-- The story created for the first leaf seen at a key. -/
def newStory (leaf : PostLeaf) : Story :=
  ⟨leaf.title, leaf.timestamp, leaf.href, leaf.identity, leaf.displayName, 1,
   [leaf.identity], leaf.index⟩

/-- The update a later leaf of the same key applies: only `amplify` leaves
contribute an upvote and an upvoter; a falsy (empty) story title is replaced
by a truthy leaf title. -/
def updStory (story : Story) (leaf : PostLeaf) : Story :=
  if leaf.type = "amplify" then
    { story with
      upvotes := story.upvotes + 1,
      upvoters := story.upvoters ++ [leaf.identity],
      title := if story.title = "" ∧ leaf.title ≠ "" then leaf.title else story.title }
  else story

/-- First-match lookup in the insertion-ordered story map. -/
def lookupAssoc (acc : List (String × Story)) (key : String) : Option Story :=
  (acc.find? (fun p => decide (p.1 = key))).map (·.2)

/-- One loop iteration of `count`: a fresh key appends its story at the end
(JavaScript object insertion order), an existing key's story is updated in
place. -/
def countStep (normalizeUrl : String → String) (acc : List (String × Story))
    (leaf : PostLeaf) : List (String × Story) :=
  let key := normalizeUrl leaf.href
  match lookupAssoc acc key with
  | none => acc ++ [(key, newStory leaf)]
  | some _ => acc.map (fun p => if p.1 = key then (p.1, updStory p.2 leaf) else p)

/-- Model of `count(leaves)` from src/unnamed/part_001 (`Object.values` of the
story map, in insertion order). -/
def count (normalizeUrl : String → String) (leaves : List PostLeaf) : List Story :=
  ((leaves.mergeSort (fun a b => decide (a.timestamp ≤ b.timestamp))).foldl
      (countStep normalizeUrl) []).map (·.2)

/-- The per-key evolution of one story under the leaves of its own key, used
to reason about `count`. -/
def perKey : List PostLeaf → Option Story → Option Story
  | [], s => s
  | l :: rest, none => perKey rest (some (newStory l))
  | l :: rest, some st => perKey rest (some (updStory st l))

/-- The classification `compare` gives a single descriptor, as a function of
the descriptor alone: the whole-tree special case wins, otherwise `lookup`
decides; `none` when `lookup` propagates an error.  Used to reason about
`compare`. -/
def classifyD (trie : LocalTrie) (d : RemoteDescriptor) : Option LookupType :=
  if d.level = 0 ∧ isEqualB trie.root d.hash then some .matched
  else
    match lookup trie d.hash d.key with
    | .error _ => none
    | .ok res =>
      if res.type = .matched ∧ res.node.isSome then some .matched
      else if res.type = .mismatch ∧ res.node.isSome then some .mismatch
      else some .missing

/-! ## Concrete fixtures

Small concrete instances used to evaluate the definitions at explicit
inputs. -/

/-- A stand-in digest function of the correct output length (the real
keccak256 is external). -/
def wKeccak : Bytes → Bytes := fun _ => List.replicate 32 0

/-- A leaf whose encoding is 45 bytes (at least 32). -/
def cNodeBig : TrieNode := .leaf [1, 2] (List.replicate 40 7)

/-- A leaf whose encoding is 3 bytes (under 32). -/
def cNodeSmall : TrieNode := .leaf [1] [42]

/-- A trie whose database is empty and whose persisted root is the one-byte
buffer `[1]`. -/
def cTrieC1 : LocalTrie := ⟨[1], fun _ => .error .missingNode, fun _ => none⟩

/-- A level-0 descriptor whose hash equals `cTrieC1`'s root. -/
def cD0 : RemoteDescriptor := ⟨0, [], [1]⟩

/-- A level-0 descriptor whose hash differs from `cTrieC1`'s root. -/
def cD1 : RemoteDescriptor := ⟨0, [], [2]⟩

/-- The persisted root of the one-leaf trie `cTrieT1`. -/
def cRoot1 : Bytes := rlpEncode cNodeSmall.raw

/-- A trie holding exactly the node `cNodeSmall` at its root. -/
def cTrieT1 : LocalTrie :=
  ⟨cRoot1,
   fun h => if h = cRoot1 then .ok cNodeSmall else .error .missingNode,
   fun _ => none⟩

/-- A trie whose persisted root is the canonical empty root over an empty
database. -/
def cTrieEmpty : LocalTrie := ⟨emptyRoot, fun _ => .error .missingNode, fun _ => none⟩

/-- A trivial trie-write function over `Nat` trie states. -/
def cPutNat : Nat → Bytes → Bytes → Except String Nat := fun t _ _ => .ok t

/-- An `add` configuration with permissive externals, an epoch floor of 100
and a future bound of 1000 + 60. -/
def cCfgAdd : AddConfig :=
  ⟨fun _ => .ok "0xabc", fun _ => some "0xabc", 100, 1000, 60,
   fun _ => ([1], [2]), id, id⟩

/-- A message older than `cCfgAdd`'s epoch floor. -/
def cMsgOld : Message := ⟨"https://x.example", "t", "submit", 50, "sig"⟩

/-- A message at least 1060 = now + tolerance of `cCfgAdd`. -/
def cMsgNew : Message := ⟨"https://x.example", "t", "submit", 5000, "sig"⟩

/-- A `leaves` configuration without a parser over trivial value types. -/
def cLeavesCfg : LeavesCfg Nat Nat := ⟨fun b => b.length, none, fun _ => 0, fun _ => "", id⟩

/-- A submit leaf at timestamp 100 by identity S1. -/
def cLf1 : PostLeaf := ⟨"https://x.example", "T", "submit", 100, "S1", "", "i1"⟩

/-- An amplify leaf at timestamp 110 on the same href by identity S2. -/
def cLf2 : PostLeaf := ⟨"https://x.example", "", "amplify", 110, "S2", "", "i2"⟩

/-- A leaf on an unrelated href. -/
def cLf3 : PostLeaf := ⟨"https://other.example", "U", "submit", 90, "S3", "", "i3"⟩

/-! # Theorems -/

/-! ## C9: `isEqual` -/

/-- C9: `isEqual(buf1, buf2)` raises an error whenever either argument is an
array; when both arguments are buffers it returns true exactly when their
bytes are equal; and it never reports two values equal unless both are
buffers (a `true` result forces two byte-equal buffers). -/
theorem isEqual_buffers_only :
    (∀ (l : List Bytes) (v : JSVal),
      (∃ m, isEqual (.arr l) v = .error m) ∧ (∃ m, isEqual v (.arr l) = .error m)) ∧
    (∀ b1 b2 : Bytes, isEqual (.buf b1) (.buf b2) = .ok (decide (b1 = b2))) ∧
    (∀ v1 v2 : JSVal, isEqual v1 v2 = .ok true →
      ∃ b1 b2, v1 = .buf b1 ∧ v2 = .buf b2 ∧ b1 = b2) := by
  refine ⟨fun l v => ⟨?_, ?_⟩, fun b1 b2 => rfl, fun v1 v2 h => ?_⟩
  · cases v <;> exact ⟨_, rfl⟩
  · cases v <;> exact ⟨_, rfl⟩
  · cases v1 with
    | arr l => exact absurd h (by simp [isEqual])
    | other =>
      cases v2 with
      | arr l2 => exact absurd h (by simp [isEqual])
      | buf b => exact absurd h (by simp [isEqual])
      | other => exact absurd h (by simp [isEqual])
    | buf b1 =>
      cases v2 with
      | arr l2 => exact absurd h (by simp [isEqual])
      | other => exact absurd h (by simp [isEqual])
      | buf b2 =>
        have hb : b1 = b2 := by simpa [isEqual] using h
        exact ⟨b1, b2, rfl, rfl, hb⟩

/-- Witness for C9 at concrete inputs. -/
theorem isEqual_buffers_only_witness :
    (∃ m, isEqual (.arr [[1]]) (.buf [2]) = .error m) ∧
    (∃ b1 b2, JSVal.buf [3] = JSVal.buf b1 ∧ JSVal.buf [3] = JSVal.buf b2 ∧ b1 = b2) :=
  ⟨(isEqual_buffers_only.1 [[1]] (.buf [2])).1,
   isEqual_buffers_only.2.2 (.buf [3]) (.buf [3]) (by rfl)⟩

/-! ## C4: `hash` -/

/-- C4: for every branch, extension or leaf node, if the RLP encoding of the
node's raw fields is at least 32 bytes long then `hash(node)` is exactly the
32-byte keccak256 digest of that encoding, and if it is under 32 bytes then
`hash(node)` is the encoding itself (`node.serialize()`). -/
theorem hash_encoding_rule (keccak : Bytes → Bytes) (node : TrieNode)
    (hk : ∀ b, (keccak b).length = 32) :
    ((rlpEncode node.raw).length ≥ 32 →
      hash keccak node = keccak (rlpEncode node.raw) ∧
      (hash keccak node).length = 32) ∧
    ((rlpEncode node.raw).length < 32 →
      hash keccak node = rlpEncode node.raw) := by
  constructor
  · intro h
    have he : hash keccak node = keccak (rlpEncode node.raw) := by
      simp only [hash]
      rw [if_neg (by omega)]
    exact ⟨he, he ▸ hk _⟩
  · intro h
    simp only [hash, TrieNode.serialize]
    rw [if_pos h]

/-- Witness for C4: both branches of the rule at concrete nodes. -/
theorem hash_encoding_rule_witness :
    (hash wKeccak cNodeBig = wKeccak (rlpEncode cNodeBig.raw) ∧
      (hash wKeccak cNodeBig).length = 32) ∧
    hash wKeccak cNodeSmall = rlpEncode cNodeSmall.raw :=
  ⟨(hash_encoding_rule wKeccak cNodeBig (fun _ => rfl)).1 (by decide),
   (hash_encoding_rule wKeccak cNodeSmall (fun _ => rfl)).2 (by decide)⟩

/-! ## C3: `passes` -/

/-- A `dbPut` shadows earlier entries at its own key and nothing else. -/
theorem dbGet_dbPut (db : Metadb) (k k2 : String) (v : Bool) :
    dbGet (dbPut db k2 v) k = if k2 = k then some v else dbGet db k := by
  by_cases h : k2 = k
  · simp [dbGet, dbPut, List.find?_cons, h]
  · simp [dbGet, dbPut, List.find?_cons, h]

/-- A key present in the store stays present across any `passes` call. -/
theorem dbGet_passes_pres (db : Metadb) (k k2 i : String)
    (h : dbGet db k ≠ none) : dbGet (passes db k2 i).2 k ≠ none := by
  simp only [passes]
  rw [dbGet_dbPut]
  split
  · simp
  · exact h

/-- A key present in the store stays present across any sequence of
`passes` calls. -/
theorem dbGet_runPasses_pres (ks : List String) : ∀ (db : Metadb) (k : String),
    dbGet db k ≠ none → dbGet (runPasses db ks) k ≠ none := by
  induction ks with
  | nil => intro db k h; simpa [runPasses] using h
  | cons a as ih =>
    intro db k h
    simp only [runPasses, List.foldl_cons] at *
    exact ih _ _ (dbGet_passes_pres db k a "" h)

/-- C3: with a dedup store in which the key is initially absent, `passes`
returns true on the first call for that key and false on every later
sequential call with that same key, whatever other keys are passed in
between. -/
theorem passes_first_only (db : Metadb) (k i : String)
    (h : dbGet db k = none) :
    (passes db k i).1 = true ∧
    ∀ (ks : List String) (i2 : String),
      (passes (runPasses (passes db k i).2 ks) k i2).1 = false := by
  constructor
  · simp [passes, h]
  · intro ks i2
    have h1 : dbGet (passes db k i).2 k ≠ none := by
      simp only [passes]
      rw [dbGet_dbPut]
      simp
    have h2 := dbGet_runPasses_pres ks _ k h1
    simp only [passes]
    rw [decide_eq_false_iff_not]
    exact h2

/-- Witness for C3 on an initially empty store, with an unrelated key and a
repeat of the same key in between. -/
theorem passes_first_only_witness :
    (passes [] "a" "x").1 = true ∧
    (passes (runPasses (passes [] "a" "x").2 ["b", "a"]) "a" "y").1 = false := by
  have h := passes_first_only [] "a" "x" (by rfl)
  exact ⟨h.1, h.2 ["b", "a"] "y"⟩

/-! ## C2: `add` timestamp gates -/

/-- C2: `add` rejects every message whose timestamp is strictly below
`minTimestampSecs` and, unless `synching`, every message whose timestamp is
at or above `now + toleranceSecs`; in both cases the call fails before
`trie.put`, so the trie state (and with it the trie root) is unchanged. -/
theorem add_rejects_out_of_range {τ : Type} (cfg : AddConfig)
    (triePut : τ → Bytes → Bytes → Except String τ) (trie : τ) (message : Message)
    (libp2p synching : Bool) (metadb : Metadb) :
    (message.timestamp < cfg.minTimestampSecs →
      (∃ e, (add cfg triePut trie message libp2p synching metadb).result = .error e) ∧
      (add cfg triePut trie message libp2p synching metadb).trie = trie) ∧
    (synching = false → message.timestamp ≥ cfg.nowSecs + cfg.toleranceSecs →
      (∃ e, (add cfg triePut trie message libp2p synching metadb).result = .error e) ∧
      (add cfg triePut trie message libp2p synching metadb).trie = trie) := by
  constructor
  · intro h
    unfold add
    split
    · exact ⟨⟨_, rfl⟩, rfl⟩
    · split
      · exact ⟨⟨_, rfl⟩, rfl⟩
      · rw [if_pos h]
        exact ⟨⟨_, rfl⟩, rfl⟩
  · intro hs h
    unfold add
    split
    · exact ⟨⟨_, rfl⟩, rfl⟩
    · split
      · exact ⟨⟨_, rfl⟩, rfl⟩
      · by_cases h2 : message.timestamp < cfg.minTimestampSecs
        · rw [if_pos h2]
          exact ⟨⟨_, rfl⟩, rfl⟩
        · rw [if_neg h2, if_pos ⟨by simp [hs], h⟩]
          exact ⟨⟨_, rfl⟩, rfl⟩

/-- Witness for C2: a message below the epoch floor and one beyond the
future bound, both rejected with the trie state untouched. -/
theorem add_rejects_witness :
    ((∃ e, (add cCfgAdd cPutNat 0 cMsgOld false false []).result = .error e) ∧
      (add cCfgAdd cPutNat 0 cMsgOld false false []).trie = 0) ∧
    ((∃ e, (add cCfgAdd cPutNat 0 cMsgNew false false []).result = .error e) ∧
      (add cCfgAdd cPutNat 0 cMsgNew false false []).trie = 0) :=
  ⟨(add_rejects_out_of_range cCfgAdd cPutNat 0 cMsgOld false false []).1 (by decide),
   (add_rejects_out_of_range cCfgAdd cPutNat 0 cMsgNew false false []).2 rfl (by decide)⟩

/-! ## C10: `compare` classifies unresolvable descriptors as missing -/

/-- C10: a remote descriptor whose hash is not decodable as an inline node,
absent from the hash-keyed store, and whose key path holds no local node
(`findPath` yields a null node) is classified `missing` by `compare`, not
`mismatch`: `lookup` reports type mismatch with a null node, and `compare`
requires a non-null node for the mismatch bucket. -/
theorem compare_missing_not_mismatch (trie : LocalTrie) (d : RemoteDescriptor)
    (h1 : decodeNodeOpt d.hash = none)
    (h2 : trie.lookupNode d.hash = .error .missingNode)
    (h3 : trie.findPath d.key = none)
    (h4 : ¬(d.level = 0 ∧ isEqualB trie.root d.hash)) :
    lookup trie d.hash d.key = .ok ⟨none, .mismatch⟩ ∧
    compare trie [d] = .ok ⟨[d], [], []⟩ := by
  have hl : lookup trie d.hash d.key = .ok ⟨none, .mismatch⟩ := by
    simp only [lookup, h1, h2, h3]
  refine ⟨hl, ?_⟩
  simp only [compare, compareGo, if_neg h4, hl]
  rfl

/-- Witness for C10: a descriptor with an undecodable hash against an empty
database. -/
theorem compare_missing_witness :
    lookup cTrieC1 cD1.hash cD1.key = .ok ⟨none, .mismatch⟩ ∧
    compare cTrieC1 [cD1] = .ok ⟨[cD1], [], []⟩ :=
  compare_missing_not_mismatch cTrieC1 cD1 rfl rfl rfl (by decide)

/-! ## C1: the `compare` partition -/

/-- Every element of a `compare` bucket carries the classification of its
bucket and comes from the input list. -/
theorem compareGo_mem {trie : LocalTrie} :
    ∀ {rs : List RemoteDescriptor} {c : CompareResult}, compareGo trie rs = .ok c →
      (∀ d ∈ c.matched, classifyD trie d = some .matched ∧ d ∈ rs) ∧
      (∀ d ∈ c.mismatch, classifyD trie d = some .mismatch ∧ d ∈ rs) ∧
      (∀ d ∈ c.missing, classifyD trie d = some .missing ∧ d ∈ rs) := by
  intro rs
  induction rs with
  | nil =>
    intro c h
    simp only [compareGo] at h
    cases h
    refine ⟨?_, ?_, ?_⟩ <;> intro d hd <;> simp at hd
  | cons r rest ih =>
    intro c h
    simp only [compareGo] at h
    by_cases hr : r.level = 0 ∧ isEqualB trie.root r.hash
    · rw [if_pos hr] at h
      cases h
      refine ⟨?_, ?_, ?_⟩ <;> intro d hd <;> simp at hd
      subst hd
      exact ⟨by simp [classifyD, if_pos hr], by simp⟩
    · rw [if_neg hr] at h
      cases hl : lookup trie r.hash r.key with
      | error e => rw [hl] at h; cases h
      | ok res =>
        rw [hl] at h
        cases hrest : compareGo trie rest with
        | error e => rw [hrest] at h; simp [Except.map] at h
        | ok c2 =>
          rw [hrest] at h
          simp only [Except.map] at h
          cases h
          have IH := ih hrest
          have hcl : ∀ t : LookupType,
              (if res.type = .matched ∧ res.node.isSome then LookupType.matched
               else if res.type = .mismatch ∧ res.node.isSome then LookupType.mismatch
               else LookupType.missing) = t →
              classifyD trie r = some t := by
            intro t ht
            simp only [classifyD, if_neg hr, hl]
            rw [← ht]
            split
            · rfl
            · split <;> rfl
          by_cases c1 : res.type = .matched ∧ res.node.isSome
          · rw [if_pos c1]
            refine ⟨?_, ?_, ?_⟩ <;> intro d hd
            · rcases List.mem_cons.mp hd with h1 | h1
              · subst h1
                exact ⟨hcl _ (by rw [if_pos c1]), by simp⟩
              · exact ⟨(IH.1 d h1).1, List.mem_cons_of_mem _ (IH.1 d h1).2⟩
            · exact ⟨(IH.2.1 d hd).1, List.mem_cons_of_mem _ (IH.2.1 d hd).2⟩
            · exact ⟨(IH.2.2 d hd).1, List.mem_cons_of_mem _ (IH.2.2 d hd).2⟩
          · rw [if_neg c1]
            by_cases c2' : res.type = .mismatch ∧ res.node.isSome
            · rw [if_pos c2']
              refine ⟨?_, ?_, ?_⟩ <;> intro d hd
              · exact ⟨(IH.1 d hd).1, List.mem_cons_of_mem _ (IH.1 d hd).2⟩
              · rcases List.mem_cons.mp hd with h1 | h1
                · subst h1
                  exact ⟨hcl _ (by rw [if_neg c1, if_pos c2']), by simp⟩
                · exact ⟨(IH.2.1 d h1).1, List.mem_cons_of_mem _ (IH.2.1 d h1).2⟩
              · exact ⟨(IH.2.2 d hd).1, List.mem_cons_of_mem _ (IH.2.2 d hd).2⟩
            · rw [if_neg c2']
              refine ⟨?_, ?_, ?_⟩ <;> intro d hd
              · exact ⟨(IH.1 d hd).1, List.mem_cons_of_mem _ (IH.1 d hd).2⟩
              · exact ⟨(IH.2.1 d hd).1, List.mem_cons_of_mem _ (IH.2.1 d hd).2⟩
              · rcases List.mem_cons.mp hd with h1 | h1
                · subst h1
                  exact ⟨hcl _ (by rw [if_neg c1, if_neg c2']), by simp⟩
                · exact ⟨(IH.2.2 d h1).1, List.mem_cons_of_mem _ (IH.2.2 d h1).2⟩

/-- When no input descriptor triggers the whole-tree special case, every
input descriptor lands in one of the three buckets. -/
theorem compareGo_coverage {trie : LocalTrie} :
    ∀ {rs : List RemoteDescriptor} {c : CompareResult}, compareGo trie rs = .ok c →
      (∀ d ∈ rs, ¬(d.level = 0 ∧ isEqualB trie.root d.hash)) →
      ∀ d ∈ rs, d ∈ c.matched ∨ d ∈ c.mismatch ∨ d ∈ c.missing := by
  intro rs
  induction rs with
  | nil => intro c _ _ d hd; simp at hd
  | cons r rest ih =>
    intro c h hno d hd
    simp only [compareGo] at h
    rw [if_neg (hno r (by simp))] at h
    cases hl : lookup trie r.hash r.key with
    | error e => rw [hl] at h; cases h
    | ok res =>
      rw [hl] at h
      cases hrest : compareGo trie rest with
      | error e => rw [hrest] at h; simp [Except.map] at h
      | ok c2 =>
        rw [hrest] at h
        simp only [Except.map] at h
        cases h
        have IH := fun d hd => ih hrest (fun d2 hd2 => hno d2 (List.mem_cons_of_mem _ hd2)) d hd
        rcases List.mem_cons.mp hd with h1 | h1
        · subst h1
          by_cases c1 : res.type = .matched ∧ res.node.isSome
          · rw [if_pos c1]; exact Or.inl (by simp)
          · rw [if_neg c1]
            by_cases c2' : res.type = .mismatch ∧ res.node.isSome
            · rw [if_pos c2']; exact Or.inr (Or.inl (by simp))
            · rw [if_neg c2']; exact Or.inr (Or.inr (by simp))
        · rcases IH d h1 with h2 | h2 | h2
          · refine Or.inl ?_
            split
            · simp [h2]
            · split <;> simp [h2]
          · refine Or.inr (Or.inl ?_)
            split
            · simp [h2]
            · split <;> simp [h2]
          · refine Or.inr (Or.inr ?_)
            split
            · simp [h2]
            · split <;> simp [h2]

/-- C1 (amended): the three lists returned by `compare` are pairwise
disjoint and drawn from the input; their union contains every descriptor of
the input list whenever no descriptor triggers the level-0 whole-tree
special case (which ends the batch early, leaving the rest of the input in
no list). -/
theorem compare_partition (trie : LocalTrie) (remotes : List RemoteDescriptor)
    (c : CompareResult) (hc : compare trie remotes = .ok c) :
    ((∀ d ∈ c.matched, d ∉ c.mismatch ∧ d ∉ c.missing) ∧
      (∀ d ∈ c.mismatch, d ∉ c.missing)) ∧
    (∀ d, (d ∈ c.matched ∨ d ∈ c.mismatch ∨ d ∈ c.missing) → d ∈ remotes) ∧
    ((∀ d ∈ remotes, ¬(d.level = 0 ∧ isEqualB trie.root d.hash)) →
      ∀ d ∈ remotes, d ∈ c.matched ∨ d ∈ c.mismatch ∨ d ∈ c.missing) := by
  have hm := compareGo_mem hc
  refine ⟨⟨?_, ?_⟩, ?_, fun hno => compareGo_coverage hc hno⟩
  · intro d hd
    constructor
    · intro hd2
      have := (hm.1 d hd).1.symm.trans (hm.2.1 d hd2).1
      cases this
    · intro hd2
      have := (hm.1 d hd).1.symm.trans (hm.2.2 d hd2).1
      cases this
  · intro d hd hd2
    have := (hm.2.1 d hd).1.symm.trans (hm.2.2 d hd2).1
    cases this
  · intro d hd
    rcases hd with h | h | h
    · exact (hm.1 d h).2
    · exact (hm.2.1 d h).2
    · exact (hm.2.2 d h).2

/-- Counterexample for C1 as stated: a level-0 descriptor equal to the local
root ends the batch early, so the later descriptor `cD1` is in none of the
three returned lists even though it is in the input. -/
theorem compare_partition_cex :
    compare cTrieC1 [cD0, cD1] = .ok ⟨[], [], [cD0]⟩ ∧
    cD1 ∈ [cD0, cD1] ∧
    ¬(cD1 ∈ ([cD0] : List RemoteDescriptor) ∨
      cD1 ∈ ([] : List RemoteDescriptor) ∨
      cD1 ∈ ([] : List RemoteDescriptor)) :=
  ⟨rfl, by decide, by decide⟩

/-- Witness for C1 (amended) on a one-descriptor batch with no special-case
hit: the descriptor is covered by the union. -/
theorem compare_partition_witness :
    cD1 ∈ ([] : List RemoteDescriptor) ∨
    cD1 ∈ ([] : List RemoteDescriptor) ∨
    cD1 ∈ ([cD1] : List RemoteDescriptor) :=
  (compare_partition cTrieC1 [cD1] ⟨[cD1], [], []⟩ rfl).2.2 (by decide) cD1 (by decide)

/-! ## C5: leaf descriptors above level 0 carry full keys -/

/-- C5: in `descend` with `level > 0`, a leaf recorded because the remaining
depth reached zero is emitted with key equal to the byte concatenation of
the accumulated path and the leaf's own stored key suffix, each converted
from nibbles to bytes, together with the node's hash. -/
theorem descend_leaf_key_concat (trie : LocalTrie) (keccak : Bytes → Bytes)
    (level : Nat) (exclude : List Bytes) (key nk : List Nat) (v : Bytes)
    (hlv : level ≠ 0)
    (hex : exclude.any
      (fun markedNode => isEqualB markedNode (hash keccak (.leaf nk v))) = false) :
    walkOnFound trie keccak level exclude 0 (.leaf nk v) key =
      ([⟨level, nibblesToBuffer key ++ nibblesToBuffer nk,
         hash keccak (.leaf nk v), some (.leaf nk v)⟩], none) := by
  simp only [walkOnFound, hex, Bool.false_eq_true, if_false]
  rw [if_pos hlv]

/-- Witness for C5: a leaf one level below a branch, with odd nibble
fragments on both sides. -/
theorem descend_leaf_key_concat_witness :
    walkOnFound cTrieC1 wKeccak 1 [] 0 (.leaf [2, 0, 3] [7]) [3] =
      ([⟨1, nibblesToBuffer [3] ++ nibblesToBuffer [2, 0, 3],
         hash wKeccak (.leaf [2, 0, 3] [7]), some (.leaf [2, 0, 3] [7])⟩], none) :=
  descend_leaf_key_concat cTrieC1 wKeccak 1 [] [3] [2, 0, 3] [7] (by decide) rfl

/-! ## C6: `descend` at level 0 -/

/-- C6: `descend(trie, 0, [])` returns exactly one descriptor: on a
non-empty trie (well-formed, with its root node stored under the persisted
root hash) the descriptor carries the root's hash at the empty key; on an
empty trie it is the sentinel descriptor for the canonical empty root
instead of an error. -/
theorem descend_zero_root (keccak : Bytes → Bytes) (trie : LocalTrie) :
    (∀ n : TrieNode, isEqualB emptyRoot trie.root = false →
      trie.lookupNode trie.root = .ok n →
      hash keccak n = trie.root →
      descend trie keccak 0 [] = .ok [⟨0, [], trie.root, some n⟩]) ∧
    (isEqualB emptyRoot trie.root = true →
      descend trie keccak 0 [] = .ok [⟨0, [], trie.root, none⟩]) := by
  constructor
  · intro n hne hroot hh
    have hrec : walkOnFound trie keccak 0 [] 0 n [] =
        ([⟨0, nibblesToBuffer [], hash keccak n, some n⟩], none) := by
      cases n with
      | leaf nk v =>
        simp only [walkOnFound, List.any_nil, Bool.false_eq_true, if_false]
        rw [if_neg (by simp)]
      | branch children value =>
        simp only [walkOnFound, List.any_nil, Bool.false_eq_true, if_false]
      | extension ek child =>
        simp only [walkOnFound, List.any_nil, Bool.false_eq_true, if_false]
    have hnib : nibblesToBuffer [] = [] := by
      simp [nibblesToBuffer]
    simp only [descend, hne, Bool.false_eq_true, and_false, if_false, newWalk,
      hroot, hrec, hh, hnib]
  · intro he
    simp [descend, he]

/-- Witness for C6: the one-leaf trie and the empty trie. -/
theorem descend_zero_root_witness :
    descend cTrieT1 wKeccak 0 [] = .ok [⟨0, [], cTrieT1.root, some cNodeSmall⟩] ∧
    descend cTrieEmpty wKeccak 0 [] = .ok [⟨0, [], cTrieEmpty.root, none⟩] :=
  ⟨(descend_zero_root wKeccak cTrieT1).1 cNodeSmall (by decide) (by rfl) (by decide),
   (descend_zero_root wKeccak cTrieEmpty).2 (by decide)⟩

/-! ## C7: `leaves` pagination -/

/-- The collection loop of `leaves` with `amount = k` never grows the
output beyond `max acc.length k.toNat`, whatever the parser and filters. -/
theorem leavesLoop_length_le {α β : Type} (cfg : LeavesCfg α β) (from_ : Option Int)
    (k : Int) (sd : Option Int) (href : Option String) :
    ∀ (list : List TrieNode) (pointer : Nat) (acc : List (α ⊕ β)),
      (leavesLoop cfg from_ (some k) sd href list pointer acc).length ≤
        max acc.length k.toNat := by
  intro list
  induction list with
  | nil =>
    intro pointer acc
    simp [leavesLoop]
  | cons node rest ih =>
    intro pointer acc
    simp only [leavesLoop]
    split
    · simp
    · rename_i hbr
      simp only [decide_eq_true_eq] at hbr
      have hlt : acc.length + 1 ≤ k.toNat := by omega
      have hpush : ∀ (x : α ⊕ β) (p2 : Nat),
          (leavesLoop cfg from_ (some k) sd href rest p2 (x :: acc)).length ≤
            max acc.length k.toNat := by
        intro x p2
        refine le_trans (ih p2 (x :: acc)) (Nat.max_le.mpr ⟨?_, Nat.le_max_right _ _⟩)
        exact le_trans (by simpa using hlt) (Nat.le_max_right _ _)
      split
      · exact ih _ _
      · split
        · exact hpush _ _
        · split
          · exact ih _ _
          · split
            · split
              · exact ih _ _
              · exact hpush _ _
            · exact hpush _ _

/-- The collection loop of `leaves` without a parser computes a drop/take
window over the decoded leaf values: `from = n` drops the first
`n.toNat - pointer` leaves and `amount = k` takes at most
`k.toNat - acc.length` of the rest. -/
theorem leavesLoop_noparser {α β : Type} (cfg : LeavesCfg α β) (hp : cfg.parser = none)
    (n k : Int) (sd : Option Int) (href : Option String) :
    ∀ (list : List TrieNode) (pointer : Nat) (acc : List (α ⊕ β)),
      leavesLoop cfg (some n) (some k) sd href list pointer acc =
        acc.reverse ++
          (((list.map (fun node => Sum.inl (cfg.decodeValue node.nodeValue))).drop
            (n.toNat - pointer)).take (k.toNat - acc.length)) := by
  intro list
  induction list with
  | nil =>
    intro pointer acc
    simp [leavesLoop]
  | cons node rest ih =>
    intro pointer acc
    simp only [leavesLoop, hp]
    split
    · rename_i hbr
      simp only [decide_eq_true_eq] at hbr
      have h0 : k.toNat - acc.length = 0 := by omega
      simp [h0]
    · rename_i hbr
      simp only [decide_eq_true_eq] at hbr
      split
      · rename_i hskip
        simp only [decide_eq_true_eq] at hskip
        rw [ih]
        have h1 : n.toNat - pointer = (n.toNat - (pointer + 1)) + 1 := by omega
        simp only [List.map_cons]
        rw [h1, List.drop_succ_cons]
      · rename_i hskip
        simp only [decide_eq_true_eq] at hskip
        rw [ih]
        have h0 : n.toNat - pointer = 0 := by omega
        have h0' : n.toNat - (pointer + 1) = 0 := by omega
        have hk : k.toNat - acc.length = (k.toNat - (acc.length + 1)) + 1 := by omega
        simp only [List.map_cons, h0, h0', List.drop_zero]
        rw [hk, List.take_succ_cons]
        simp

/-- C7 (amended): `leaves` with `amount = k` yields at most `max(k, 0)`
items for every integer `k` (a negative `k` yields none, because the
`nodes.length >= amount` break fires immediately, so the claim's "at most
`k`" fails for negative `k`); with `from = n` and no parser it skips exactly
the first `n.toNat` leaf values in traversal order before yielding (the
skip counter counts walked leaves, before any parser filters). -/
theorem leaves_pagination {α β : Type} (cfg : LeavesCfg α β) (trie : LocalTrie)
    (fuel : Nat) (n k : Int) (sd : Option Int) (href : Option String)
    (root : Bytes) (from_ : Option Int) :
    (∀ out, leaves cfg trie fuel from_ (some k) sd href root = .ok out →
      out.length ≤ k.toNat) ∧
    (∀ ws, walkTrieDfs trie fuel (.str root) [] = .ok ws →
      cfg.parser = none →
      leaves cfg trie fuel (some n) (some k) sd href root =
        .ok (((ws.map (fun p => Sum.inl (cfg.decodeValue p.1.nodeValue))).drop
          n.toNat).take k.toNat)) := by
  constructor
  · intro out hout
    unfold leaves at hout
    cases hw : walkTrieDfs trie fuel (.str root) [] with
    | error e => rw [hw] at hout; cases hout
    | ok ws =>
      rw [hw] at hout
      cases hout
      simpa using leavesLoop_length_le cfg from_ k sd href (ws.map Prod.fst) 0 []
  · intro ws hws hp
    unfold leaves
    rw [hws]
    show Except.ok (leavesLoop cfg (some n) (some k) sd href (ws.map Prod.fst) 0 []) = _
    rw [leavesLoop_noparser cfg hp]
    simp only [List.nil_append, List.reverse_nil, Nat.sub_zero, List.length_nil,
      List.map_map]
    rfl

/-- Counterexample for C7 as stated ("for every integer k"): on the empty
trie with `amount = -1`, `leaves` yields 0 items, which is not at most -1. -/
theorem leaves_pagination_cex :
    leaves cLeavesCfg cTrieEmpty 1 none (some (-1)) none none cTrieEmpty.root =
      .ok [] ∧
    ¬((0 : Int) ≤ -1) :=
  ⟨rfl, by decide⟩

/-- Witness for C7 (amended) on the one-leaf trie with `from = 0`,
`amount = 5`. -/
theorem leaves_pagination_witness :
    ([Sum.inl 1] : List (Nat ⊕ Nat)).length ≤ (5 : Int).toNat ∧
    leaves cLeavesCfg cTrieT1 10 (some 0) (some 5) none none cTrieT1.root =
      .ok ((([(cNodeSmall, ([] : List Nat))].map
        (fun p => Sum.inl (cLeavesCfg.decodeValue p.1.nodeValue))).drop
          (0 : Int).toNat).take (5 : Int).toNat) :=
  ⟨(leaves_pagination cLeavesCfg cTrieT1 10 0 5 none none cTrieT1.root
      (some 0)).1 [Sum.inl 1] (by rfl),
   (leaves_pagination cLeavesCfg cTrieT1 10 0 5 none none cTrieT1.root
      (some 0)).2 [(cNodeSmall, [])] (by rfl) rfl⟩

/-! ## C8: `count` aggregation -/

/-- The update `updStory` never changes the story href. -/
theorem updStory_href (s : Story) (l : PostLeaf) : (updStory s l).href = s.href := by
  simp only [updStory]
  split <;> rfl

/-- Appending a fresh entry is invisible at keys found earlier and found at
its own key otherwise. -/
theorem lookupAssoc_append_single (acc : List (String × Story)) (k2 K : String)
    (s : Story) :
    lookupAssoc (acc ++ [(k2, s)]) K =
      match lookupAssoc acc K with
      | some s2 => some s2
      | none => if k2 = K then some s else none := by
  simp only [lookupAssoc, List.find?_append]
  cases h : List.find? (fun p => decide (p.1 = K)) acc with
  | some p => simp [Option.or]
  | none =>
    by_cases hk : k2 = K
    · simp [Option.or, List.find?_cons, hk]
    · simp [Option.or, List.find?_cons, hk]

/-- A head entry with the looked-up key resolves the lookup. -/
theorem lookupAssoc_cons_eq (q : String × Story) (rest : List (String × Story))
    (K : String) (h : q.1 = K) : lookupAssoc (q :: rest) K = some q.2 := by
  simp [lookupAssoc, List.find?_cons, h]

/-- A head entry with a different key is skipped by the lookup. -/
theorem lookupAssoc_cons_ne (q : String × Story) (rest : List (String × Story))
    (K : String) (h : ¬(q.1 = K)) : lookupAssoc (q :: rest) K = lookupAssoc rest K := by
  simp [lookupAssoc, List.find?_cons, h]

/-- Updating the entry at one key in place applies the update at that key
and is invisible at every other key. -/
theorem lookupAssoc_update (acc : List (String × Story)) (k2 K : String)
    (f : Story → Story) :
    lookupAssoc (acc.map (fun p => if p.1 = k2 then (p.1, f p.2) else p)) K =
      if k2 = K then (lookupAssoc acc K).map f else lookupAssoc acc K := by
  induction acc with
  | nil => simp only [List.map_nil]; split <;> simp [lookupAssoc]
  | cons p rest ih =>
    have hhead : (if p.1 = k2 then (p.1, f p.2) else p).1 = p.1 := by
      split <;> rfl
    by_cases h2 : p.1 = K
    · by_cases h1 : p.1 = k2
      · have hk : k2 = K := h1 ▸ h2
        simp only [List.map_cons, if_pos h1]
        rw [lookupAssoc_cons_eq (p.1, f p.2)
            (rest.map (fun p => if p.1 = k2 then (p.1, f p.2) else p)) K h2]
        rw [lookupAssoc_cons_eq p rest K h2, if_pos hk]
        rfl
      · have hk : ¬(k2 = K) := fun he => h1 (by rw [h2, he])
        simp only [List.map_cons, if_neg h1]
        rw [lookupAssoc_cons_eq p
            (rest.map (fun p => if p.1 = k2 then (p.1, f p.2) else p)) K h2]
        rw [lookupAssoc_cons_eq p rest K h2, if_neg hk]
    · have h2' : ¬((if p.1 = k2 then (p.1, f p.2) else p).1 = K) := by
        rw [hhead]; exact h2
      simp only [List.map_cons]
      rw [lookupAssoc_cons_ne (if p.1 = k2 then (p.1, f p.2) else p)
          (rest.map (fun p => if p.1 = k2 then (p.1, f p.2) else p)) K h2']
      rw [lookupAssoc_cons_ne p rest K h2]
      exact ih

/-- The per-key view of one `count` loop iteration: it touches only the
story at the leaf's own normalized href. -/
theorem lookupAssoc_countStep (nrm : String → String) (K : String)
    (acc : List (String × Story)) (l : PostLeaf) :
    lookupAssoc (countStep nrm acc l) K =
      if nrm l.href = K then
        match lookupAssoc acc K with
        | none => some (newStory l)
        | some s => some (updStory s l)
      else lookupAssoc acc K := by
  simp only [countStep]
  cases hc : lookupAssoc acc (nrm l.href) with
  | none =>
    rw [lookupAssoc_append_single]
    by_cases hK : nrm l.href = K
    · rw [hK] at hc
      simp [hc, hK]
    · rw [if_neg hK]
      cases hck : lookupAssoc acc K <;> simp [hK]
  | some s =>
    show lookupAssoc
        (acc.map (fun p => if p.1 = nrm l.href then (p.1, updStory p.2 l) else p)) K = _
    have hu := lookupAssoc_update acc (nrm l.href) K (fun s => updStory s l)
    rw [hu]
    by_cases hK : nrm l.href = K
    · rw [hK] at hc
      simp [hc, hK]
    · rw [if_neg hK, if_neg hK]

/-- Folding `countStep` over leaves evolves the story at key `K` by exactly
the subsequence of leaves whose normalized href is `K`. -/
theorem lookupAssoc_foldl (nrm : String → String) (K : String) :
    ∀ (list : List PostLeaf) (acc : List (String × Story)),
      lookupAssoc (list.foldl (countStep nrm) acc) K =
        perKey (list.filter (fun l => decide (nrm l.href = K))) (lookupAssoc acc K) := by
  intro list
  induction list with
  | nil => intro acc; simp [perKey]
  | cons l rest ih =>
    intro acc
    rw [List.foldl_cons, ih]
    by_cases hK : nrm l.href = K
    · rw [List.filter_cons_of_pos (by simp [hK])]
      rw [lookupAssoc_countStep nrm K acc l, if_pos hK]
      cases lookupAssoc acc K <;> simp [perKey]
    · rw [List.filter_cons_of_neg (by simp [hK])]
      rw [lookupAssoc_countStep nrm K acc l, if_neg hK]

/-- The step `countStep` preserves the story-map invariants: every stored story's
normalized href is its key, and keys are unique. -/
theorem countStep_inv (nrm : String → String) (acc : List (String × Story))
    (l : PostLeaf)
    (h1 : ∀ p ∈ acc, nrm p.2.href = p.1)
    (h2 : (acc.map Prod.fst).Nodup) :
    (∀ p ∈ countStep nrm acc l, nrm p.2.href = p.1) ∧
    ((countStep nrm acc l).map Prod.fst).Nodup := by
  simp only [countStep]
  cases hc : lookupAssoc acc (nrm l.href) with
  | none =>
    have habsent : ∀ p ∈ acc, ¬(p.1 = nrm l.href) := by
      intro p hp
      have hf : List.find? (fun p => decide (p.1 = nrm l.href)) acc = none := by
        simpa [lookupAssoc] using hc
      simpa using List.find?_eq_none.mp hf p hp
    constructor
    · intro p hp
      rcases List.mem_append.mp hp with h | h
      · exact h1 p h
      · simp only [List.mem_singleton] at h
        subst h
        rfl
    · rw [List.map_append]
      refine List.Nodup.append h2 (by simp) ?_
      intro a ha hb
      simp only [List.map_cons, List.map_nil, List.mem_singleton] at hb
      rcases List.mem_map.mp ha with ⟨p, hp, rfl⟩
      exact habsent p hp hb
  | some s =>
    constructor
    · intro p hp
      rcases List.mem_map.mp hp with ⟨q, hq, rfl⟩
      by_cases h : q.1 = nrm l.href
      · rw [if_pos h]
        simpa [updStory_href] using h1 q hq
      · rw [if_neg h]
        exact h1 q hq
    · have hkeys : ((acc.map (fun p => if p.1 = nrm l.href then (p.1, updStory p.2 l) else p)).map
          Prod.fst) = acc.map Prod.fst := by
        rw [List.map_map]
        refine List.map_congr_left ?_
        intro p _
        simp only [Function.comp_apply]
        split <;> rfl
      rw [hkeys]
      exact h2

/-- The story-map invariants hold after folding any leaf list from the empty
map. -/
theorem foldl_countStep_inv (nrm : String → String) :
    ∀ (list : List PostLeaf) (acc : List (String × Story)),
      (∀ p ∈ acc, nrm p.2.href = p.1) → (acc.map Prod.fst).Nodup →
      (∀ p ∈ list.foldl (countStep nrm) acc, nrm p.2.href = p.1) ∧
      ((list.foldl (countStep nrm) acc).map Prod.fst).Nodup := by
  intro list
  induction list with
  | nil => intro acc h1 h2; exact ⟨h1, h2⟩
  | cons l rest ih =>
    intro acc h1 h2
    rw [List.foldl_cons]
    have := countStep_inv nrm acc l h1 h2
    exact ih _ this.1 this.2

/-- Under the invariants, filtering the story values at a key gives exactly
the looked-up story. -/
theorem values_filter (nrm : String → String) (K : String) :
    ∀ (acc : List (String × Story)),
      (∀ p ∈ acc, nrm p.2.href = p.1) → (acc.map Prod.fst).Nodup →
      (acc.map Prod.snd).filter (fun s => decide (nrm s.href = K)) =
        (lookupAssoc acc K).toList := by
  intro acc
  induction acc with
  | nil => intro _ _; simp [lookupAssoc]
  | cons p rest ih =>
    intro h1 h2
    have hp : nrm p.2.href = p.1 := h1 p (by simp)
    rw [List.map_cons] at h2
    have h2' := List.nodup_cons.mp h2
    by_cases hK : p.1 = K
    · simp only [List.map_cons, List.filter_cons]
      rw [if_pos (by simp [hp, hK])]
      rw [lookupAssoc_cons_eq _ _ _ hK]
      have hrest : (rest.map Prod.snd).filter (fun s => decide (nrm s.href = K)) = [] := by
        rw [List.filter_eq_nil_iff]
        intro s hs
        rcases List.mem_map.mp hs with ⟨q, hq, rfl⟩
        have hq1 : nrm q.2.href = q.1 := h1 q (by simp [hq])
        have hq2 : ¬(q.1 = K) := by
          intro he
          apply h2'.1
          have hm : q.1 ∈ rest.map Prod.fst := List.mem_map_of_mem Prod.fst hq
          rwa [he, ← hK] at hm
        simp [hq1, hq2]
      rw [hrest]
      rfl
    · simp only [List.map_cons, List.filter_cons]
      rw [if_neg (by simp [hp, hK])]
      rw [lookupAssoc_cons_ne _ _ _ hK]
      exact ih (fun q hq => h1 q (by simp [hq])) h2'.2

/-- After the stable ascending-timestamp sort, the two contributions at key
`K` appear in timestamp order. -/
theorem filter_mergeSort_pair (nrm : String → String) (K : String)
    (lvs : List PostLeaf) (l1 l2 : PostLeaf)
    (hts : l1.timestamp < l2.timestamp)
    (hfil : lvs.filter (fun l => decide (nrm l.href = K)) = [l1, l2] ∨
            lvs.filter (fun l => decide (nrm l.href = K)) = [l2, l1]) :
    (lvs.mergeSort (fun a b => decide (a.timestamp ≤ b.timestamp))).filter
      (fun l => decide (nrm l.href = K)) = [l1, l2] := by
  have hperm : ((lvs.mergeSort (fun a b => decide (a.timestamp ≤ b.timestamp))).filter
      (fun l => decide (nrm l.href = K))).Perm [l1, l2] := by
    refine ((List.mergeSort_perm lvs _).filter _).trans ?_
    rcases hfil with h | h
    · rw [h]
    · rw [h]
      exact List.Perm.swap l1 l2 []
  have hsorted : ((lvs.mergeSort (fun a b => decide (a.timestamp ≤ b.timestamp))).filter
      (fun l => decide (nrm l.href = K))).Pairwise
        (fun a b => (fun a b => decide (a.timestamp ≤ b.timestamp)) a b = true) := by
    refine List.Pairwise.sublist (List.filter_sublist _) ?_
    refine List.sorted_mergeSort ?_ ?_ lvs
    · intro a b c hab hbc
      simp only [decide_eq_true_eq] at *
      omega
    · intro a b
      simp only [Bool.or_eq_true, decide_eq_true_eq]
      omega
  cases hfl : (lvs.mergeSort (fun a b => decide (a.timestamp ≤ b.timestamp))).filter
      (fun l => decide (nrm l.href = K)) with
  | nil =>
    rw [hfl] at hperm
    have := hperm.length_eq
    simp at this
  | cons a tl =>
    cases tl with
    | nil =>
      rw [hfl] at hperm
      have := hperm.length_eq
      simp at this
    | cons b tl2 =>
      cases tl2 with
      | cons c tl3 =>
        rw [hfl] at hperm
        have := hperm.length_eq
        simp at this
      | nil =>
        rw [hfl] at hperm hsorted
        have ha : a = l1 ∨ a = l2 := by
          have := hperm.mem_iff.mp (show a ∈ [a, b] by simp)
          simpa using this
        rcases ha with ha | ha
        · have hb : b = l2 := by
            rw [ha] at hperm
            simpa using List.perm_singleton.mp hperm.cons_inv
          rw [ha, hb]
        · exfalso
          have hb : b = l1 := by
            rw [ha] at hperm
            have hswap : ([l2, b]).Perm [l2, l1] :=
              hperm.trans (List.Perm.swap l2 l1 [])
            simpa using List.perm_singleton.mp hswap.cons_inv
          have habs : decide (a.timestamp ≤ b.timestamp) = true := by
            have hpw := List.pairwise_cons.mp hsorted
            simpa using hpw.1 b (by simp)
          rw [ha, hb] at habs
          simp only [decide_eq_true_eq] at habs
          omega

/-- C8: for a leaf list containing, at normalized href `K`, exactly one
submit record by `S1` and one later-timestamped amplify record by a distinct
`S2` (and any other leaves at other normalized hrefs), `count` returns
exactly one story at `K`, with 2 upvotes, upvoters `[S1, S2]`, and the
earliest record's timestamp. -/
theorem count_two_contribs (nrm : String → String) (lvs : List PostLeaf)
    (l1 l2 : PostLeaf) (K : String)
    (_hK1 : nrm l1.href = K)
    (_ht1 : l1.type = "submit")
    (ht2 : l2.type = "amplify")
    (hts : l1.timestamp < l2.timestamp)
    (_hid : l1.identity ≠ l2.identity)
    (hfil : lvs.filter (fun l => decide (nrm l.href = K)) = [l1, l2] ∨
            lvs.filter (fun l => decide (nrm l.href = K)) = [l2, l1]) :
    (count nrm lvs).filter (fun s => decide (nrm s.href = K)) =
      [updStory (newStory l1) l2] ∧
    (updStory (newStory l1) l2).upvotes = 2 ∧
    (updStory (newStory l1) l2).upvoters = [l1.identity, l2.identity] ∧
    (updStory (newStory l1) l2).timestamp = l1.timestamp := by
  have hsortfil := filter_mergeSort_pair nrm K lvs l1 l2 hts hfil
  have hinv := foldl_countStep_inv nrm
    (lvs.mergeSort (fun a b => decide (a.timestamp ≤ b.timestamp))) []
    (by intro p hp; cases hp) (by simp)
  have hlk : lookupAssoc
      ((lvs.mergeSort (fun a b => decide (a.timestamp ≤ b.timestamp))).foldl
        (countStep nrm) []) K = some (updStory (newStory l1) l2) := by
    rw [lookupAssoc_foldl nrm K _ [], hsortfil]
    rfl
  have hvals := values_filter nrm K _ hinv.1 hinv.2
  refine ⟨?_, ?_, ?_, ?_⟩
  · show ((((lvs.mergeSort (fun a b => decide (a.timestamp ≤ b.timestamp))).foldl
      (countStep nrm) []).map Prod.snd).filter (fun s => decide (nrm s.href = K))) = _
    rw [hvals, hlk]
    rfl
  · simp [updStory, newStory, ht2]
  · simp [updStory, newStory, ht2]
  · simp [updStory, newStory, ht2]

/-- Witness for C8: the submit/amplify pair on one href plus an unrelated
leaf, with the identity normalization function. -/
theorem count_two_contribs_witness :
    (count id [cLf2, cLf3, cLf1]).filter
      (fun s => decide (id s.href = "https://x.example")) =
      [updStory (newStory cLf1) cLf2] ∧
    (updStory (newStory cLf1) cLf2).upvotes = 2 ∧
    (updStory (newStory cLf1) cLf2).upvoters = [cLf1.identity, cLf2.identity] ∧
    (updStory (newStory cLf1) cLf2).timestamp = cLf1.timestamp :=
  count_two_contribs id [cLf2, cLf3, cLf1] cLf1 cLf2 "https://x.example"
    (by decide) (by decide) (by decide) (by decide) (by decide) (Or.inr (by decide))

end Kiwistand
